import Mathlib

/-!
Verification of the iterator/combinator engine of the cpp-iterators
repository: `src/iterator.h` (the second, documented version of the header)
together with the `Array` collection (`Array::from_iterator`,
`Array::ArrayIterator`).

An iterator is shallowly embedded as a deterministic state machine:
`next : σ → Option α × σ` mirrors the C++ member
`std::optional<ItemType> next()` that returns the next item (or
`std::nullopt`) while mutating the iterator's fields.  Every adapter of
`iterator.h` becomes a function taking the embedded inner iterator(s) to the
embedded adapter; the adapter's state type holds exactly the C++ member
fields (inner state, counters, flags, the dedup set).  `size_t` arithmetic is
modelled on `Nat`, with explicit wraparound modulo `2 ^ 64` where the source
can wrap (the `StepBy` discard loop).  The unbounded `do/while` pull loops
(`SkipWhile`, `Filter`, `Unique`, `UniqueBy`) are given fuel `measure + 1`;
a `Measured` certificate (a measure of the inner state that strictly
decreases on successful pulls) makes the fuel adequate, so on every input
where the C++ loop terminates the embedding computes the same answer.
-/

/-- The pull contract of `iterator.h`: one operation producing the next item
(or `none` for exhaustion) together with the successor state. -/
structure Iter (σ : Type) (α : Type) where
  next : σ → Option α × σ

namespace Iter

variable {σ σ₁ σ₂ : Type} {α β κ : Type}

/-- The item reported by one `next()` call. -/
def out (it : Iter σ α) (s : σ) : Option α := (it.next s).1

/-- The iterator state after one `next()` call. -/
def after (it : Iter σ α) (s : σ) : σ := (it.next s).2

/-- The iterator state after `n` further `next()` calls. -/
def stepN (it : Iter σ α) : Nat → σ → σ
  | 0, s => s
  | n + 1, s => it.stepN n (it.after s)

/-- The items produced by calling `next()` repeatedly until the first
exhaustion report, with explicit fuel bounding the number of calls. -/
def drain (it : Iter σ α) : Nat → σ → List α
  | 0, _ => []
  | f + 1, s =>
    match it.next s with
    | (none, _) => []
    | (some a, s') => a :: it.drain f s'

/-- `Iterator::count`: drains the iterator, returning how many items remained
(fuel-based). -/
def countFrom (it : Iter σ α) : Nat → σ → Nat
  | 0, _ => 0
  | f + 1, s =>
    match it.next s with
    | (none, _) => 0
    | (some _, s') => it.countFrom f s' + 1

end Iter

/-- `Array<T>::ArrayIterator`: a cursor over a fixed container.  The state is
the suffix of the container that the cursor has not yet yielded. -/
def listIter (α : Type) : Iter (List α) α :=
  ⟨fun s =>
    match s with
    | [] => (none, [])
    | a :: t => (some a, t)⟩

namespace Iter

variable {σ σ₁ σ₂ : Type} {α β κ : Type}

/-- `Take::next`: while `num != 0`, decrement `num` and delegate to the inner
iterator; once `num` is zero report exhaustion without pulling. -/
def take (it : Iter σ α) : Iter (σ × Nat) α :=
  ⟨fun s =>
    match s with
    | (si, 0) => (none, (si, 0))
    | (si, n + 1) =>
      let r := it.next si
      (r.1, (r.2, n))⟩

/-- The modulus of `size_t` arithmetic (the code targets a 64-bit host). -/
def sizeTMod : Nat := 2 ^ 64

/-- The number of body iterations of `StepBy`'s discard loop
`for (size_t i = 1; i != step; ++i)` when no pull fails: `i` starts at 1 and
wraps modulo `2 ^ 64`, so the loop runs `(step - 1) mod 2 ^ 64` times; in
particular `step = 0` gives `2 ^ 64 - 1` iterations. -/
def stepIters (step : Nat) : Nat := (step + (sizeTMod - 1)) % sizeTMod

/-- `StepBy`'s discard loop: pull up to `n` items, stopping early after a
pull that yields nothing (the C++ `break` — that failed pull still advanced
the inner iterator); returns the final inner state. -/
def discardUpTo (it : Iter σ α) : Nat → σ → σ
  | 0, s => s
  | n + 1, s =>
    match it.next s with
    | (none, s') => s'
    | (some _, s') => it.discardUpTo n s'

/-- `StepBy::next`: pull once; if an item was produced, run the discard loop
before returning it.  The `step` member never changes, so the state is just
the inner state. -/
def stepBy (it : Iter σ α) (step : Nat) : Iter σ α :=
  ⟨fun s =>
    match it.next s with
    | (none, s') => (none, s')
    | (some a, s') => (some a, it.discardUpTo (stepIters step) s')⟩

/-- `Map::next`: pure pass-through transform; exhaustion propagates. -/
def map (it : Iter σ α) (f : α → β) : Iter σ β :=
  ⟨fun s =>
    match it.next s with
    | (none, s') => (none, s')
    | (some a, s') => (some (f a), s')⟩

/-- `Skip`'s discard loop `for (size_t i = 0; i != skip; ++i) inner.next();`:
pull exactly `n` times, ignoring the results. -/
def pullN (it : Iter σ α) : Nat → σ → σ
  | 0, s => s
  | n + 1, s => it.pullN n (it.next s).2

/-- `Skip::next`: on the first call with `skip != 0`, pull and ignore `skip`
items and zero the counter; then delegate. -/
def skip (it : Iter σ α) : Iter (σ × Nat) α :=
  ⟨fun s =>
    match s with
    | (si, 0) =>
      let r := it.next si
      (r.1, (r.2, 0))
    | (si, k + 1) =>
      let r := it.next (it.pullN (k + 1) si)
      (r.1, (r.2, 0))⟩

/-- The shared do/while pull loop
`do { v = inner.next(); } while (v.has_value() && cont(*v));`: keep pulling
while the pulled item satisfies `cont`; return the first pulled item that
does not (or `none` on exhaustion) together with the state after the last
pull.  Fuel-based; `Measured` below makes the fuel adequate. -/
def pullWhile (it : Iter σ α) (cont : α → Bool) : Nat → σ → Option α × σ
  | 0, s => (none, s)
  | f + 1, s =>
    match it.next s with
    | (none, s') => (none, s')
    | (some a, s') => if cont a then it.pullWhile cont f s' else (some a, s')

/-- `SkipWhile::next`: state `(inner, skipped)`.  Until the first call, pull
and discard while the predicate holds, then latch `skipped`; afterwards a
plain delegation that never consults the predicate. -/
def skipWhile (it : Iter σ α) (m : σ → Nat) (p : α → Bool) : Iter (σ × Bool) α :=
  ⟨fun s =>
    match s with
    | (si, true) =>
      let r := it.next si
      (r.1, (r.2, true))
    | (si, false) =>
      let r := it.pullWhile p (m si + 1) si
      (r.1, (r.2, true))⟩

/-- `Enumerate::next`: pair each produced item with a zero-based index local
to the adapter. -/
def enumerate (it : Iter σ α) : Iter (σ × Nat) (Nat × α) :=
  ⟨fun s =>
    match it.next s.1 with
    | (none, s') => (none, (s', s.2))
    | (some a, s') => (some (s.2, a), (s', s.2 + 1))⟩

/-- `Filter::next`: pull, discarding items for which the predicate is false,
until a passing item or exhaustion. -/
def filter (it : Iter σ α) (m : σ → Nat) (p : α → Bool) : Iter σ α :=
  ⟨fun s => it.pullWhile (fun a => !p a) (m s + 1) s⟩

/-- `Chain::next`: pull from the first iterator; if it is exhausted, pull
from the second. -/
def chain (it1 : Iter σ₁ α) (it2 : Iter σ₂ α) : Iter (σ₁ × σ₂) α :=
  ⟨fun s =>
    match it1.next s.1 with
    | (some a, s1') => (some a, (s1', s.2))
    | (none, s1') =>
      let r := it2.next s.2
      (r.1, (s1', r.2))⟩

/-- `Zip::next`: pull from the first iterator; only if that produced an item,
pull from the second; return the pair only when both produced. -/
def zip (it1 : Iter σ₁ α) (it2 : Iter σ₂ β) : Iter (σ₁ × σ₂) (α × β) :=
  ⟨fun s =>
    match it1.next s.1 with
    | (none, s1') => (none, (s1', s.2))
    | (some a, s1') =>
      match it2.next s.2 with
      | (none, s2') => (none, (s1', s2'))
      | (some b, s2') => (some (a, b), (s1', s2'))⟩

/-- `TakeWhile::next`: state `(inner, stopped_taking)`.  Pull once; return
the item if the predicate holds, otherwise latch the permanent stop flag. -/
def takeWhile (it : Iter σ α) (p : α → Bool) : Iter (σ × Bool) α :=
  ⟨fun s =>
    match s with
    | (si, true) => (none, (si, true))
    | (si, false) =>
      match it.next si with
      | (none, s') => (none, (s', true))
      | (some a, s') => if p a then (some a, (s', false)) else (none, (s', true))⟩

/-- `Cycle::next`: state `(original, inner)`.  Pull from the working copy; on
exhaustion reset the working copy to the preserved original and retry once. -/
def cycle (it : Iter σ α) : Iter (σ × σ) α :=
  ⟨fun s =>
    match it.next s.2 with
    | (some a, c') => (some a, (s.1, c'))
    | (none, _) =>
      let r := it.next s.1
      (r.1, (s.1, r.2))⟩

/-- `Interleave::next`: state `(first, second, yield_first)`.  Pull from the
side that is due; if it is exhausted pull from the other side instead; flip
the due-flag every call regardless of which side produced. -/
def interleave (it1 : Iter σ₁ α) (it2 : Iter σ₂ α) : Iter (σ₁ × σ₂ × Bool) α :=
  ⟨fun s =>
    match s with
    | (s1, s2, true) =>
      match it1.next s1 with
      | (some a, s1') => (some a, (s1', s2, false))
      | (none, s1') =>
        let r := it2.next s2
        (r.1, (s1', r.2, false))
    | (s1, s2, false) =>
      match it2.next s2 with
      | (some a, s2') => (some a, (s1, s2', true))
      | (none, s2') =>
        let r := it1.next s1
        (r.1, (r.2, s2', true))⟩

/-- `InterleaveShortest::next`: pull from the side that is due; on its
exhaustion report exhaustion at once (no fallback, and the due-flag is left
unchanged); otherwise flip the flag and return the item. -/
def interleaveShortest (it1 : Iter σ₁ α) (it2 : Iter σ₂ α) :
    Iter (σ₁ × σ₂ × Bool) α :=
  ⟨fun s =>
    match s with
    | (s1, s2, true) =>
      match it1.next s1 with
      | (none, s1') => (none, (s1', s2, true))
      | (some a, s1') => (some a, (s1', s2, false))
    | (s1, s2, false) =>
      match it2.next s2 with
      | (none, s2') => (none, (s1, s2', false))
      | (some a, s2') => (some a, (s1, s2', true))⟩

/-- `Unique::next`: state `(inner, set)`, the dedup set modelled as the list
of already-returned items compared by value equality.  Pull, discarding items
already in the set, then insert the returned item before returning it. -/
def unique [DecidableEq α] (it : Iter σ α) (m : σ → Nat) : Iter (σ × List α) α :=
  ⟨fun s =>
    match it.pullWhile (fun a => decide (a ∈ s.2)) (m s.1 + 1) s.1 with
    | (none, s') => (none, (s', s.2))
    | (some a, s') => (some a, (s', a :: s.2))⟩

/-- `UniqueBy::next`: as `Unique`, but the set holds `key(item)`. -/
def uniqueBy [DecidableEq κ] (it : Iter σ α) (m : σ → Nat) (key : α → κ) :
    Iter (σ × List κ) α :=
  ⟨fun s =>
    match it.pullWhile (fun a => decide (key a ∈ s.2)) (m s.1 + 1) s.1 with
    | (none, s') => (none, (s', s.2))
    | (some a, s') => (some a, (s', key a :: s.2))⟩

/-- `Iterator::all`: drain until a falsifying item (short-circuit) or
exhaustion; the empty sequence gives `true`. -/
def allFrom (it : Iter σ α) (p : α → Bool) : Nat → σ → Bool
  | 0, _ => true
  | f + 1, s =>
    match it.next s with
    | (none, _) => true
    | (some a, s') => if p a then it.allFrom p f s' else false

/-- `Iterator::any`: drain until a satisfying item (short-circuit) or
exhaustion; the empty sequence gives `false`. -/
def anyFrom (it : Iter σ α) (p : α → Bool) : Nat → σ → Bool
  | 0, _ => false
  | f + 1, s =>
    match it.next s with
    | (none, _) => false
    | (some a, s') => if p a then true else it.anyFrom p f s'

/-- `Iterator::none`: drain until a satisfying item (short-circuit, giving
`false`) or exhaustion; the empty sequence gives `true`. -/
def noneFrom (it : Iter σ α) (p : α → Bool) : Nat → σ → Bool
  | 0, _ => true
  | f + 1, s =>
    match it.next s with
    | (none, _) => true
    | (some a, s') => if p a then false else it.noneFrom p f s'

/-- `Iterator::find`: drain until the first item satisfying the predicate;
`none` if the iterator exhausts without a match. -/
def findFrom (it : Iter σ α) (p : α → Bool) : Nat → σ → Option α
  | 0, _ => none
  | f + 1, s =>
    match it.next s with
    | (none, _) => none
    | (some a, s') => if p a then some a else it.findFrom p f s'

/-- The fold of `Iterator::max`'s range-for loop, with the C++ `operator>`
embedded as the boolean comparison `gtB`: replace the current best only when
`gtB v best` holds. -/
def maxLoop (it : Iter σ α) (gtB : α → α → Bool) : Nat → σ → α → α
  | 0, _, best => best
  | f + 1, s, best =>
    match it.next s with
    | (none, _) => best
    | (some v, s') => it.maxLoop gtB f s' (if gtB v best then v else best)

/-- `Iterator::max`: one initial pull (the empty sequence gives `none`), then
fold the rest with strict `>`. -/
def maxFrom (it : Iter σ α) (gtB : α → α → Bool) (f : Nat) (s : σ) : Option α :=
  match it.next s with
  | (none, _) => none
  | (some a, s') => some (it.maxLoop gtB f s' a)

/-- The fold of `Iterator::min`'s range-for loop, with the C++ `operator<`
embedded as the boolean comparison `ltB`: replace the current best only when
`ltB v best` holds. -/
def minLoop (it : Iter σ α) (ltB : α → α → Bool) : Nat → σ → α → α
  | 0, _, best => best
  | f + 1, s, best =>
    match it.next s with
    | (none, _) => best
    | (some v, s') => it.minLoop ltB f s' (if ltB v best then v else best)

/-- `Iterator::min`: one initial pull (the empty sequence gives `none`), then
fold the rest with strict `<`. -/
def minFrom (it : Iter σ α) (ltB : α → α → Bool) (f : Nat) (s : σ) : Option α :=
  match it.next s with
  | (none, _) => none
  | (some a, s') => some (it.minLoop ltB f s' a)

/-- The fill loop of `Array::from_iterator`: walk the original iterator
paired with `Enumerate`, writing each item into its slot (`arr[index] =
value`, modelled by `List.set`). -/
def fillLoop (it : Iter σ α) : Nat → σ × Nat → List α → List α
  | 0, _, arr => arr
  | f + 1, es, arr =>
    match it.enumerate.next es with
    | (none, _) => arr
    | (some (i, v), es') => it.fillLoop f es' (arr.set i v)

/-- `Array<T>::from_iterator`: count the items through an independent clone
(states are pure values here, so the clone is the same state value),
allocate that many default-constructed slots (`new T[count]`), then re-walk
the original iterator with `Enumerate`, writing each item into its slot. -/
def fromIterator [Inhabited α] (it : Iter σ α) (fuel : Nat) (s : σ) : List α :=
  let count := it.countFrom fuel s
  let arr := List.replicate count (default : α)
  it.fillLoop fuel (s, 0) arr

end Iter

/-- A termination certificate for the unbounded C++ pull loops: a measure of
the iterator state that strictly decreases on every successful pull.  The
iterators on which those loops terminate from every state are exactly the
ones admitting such a measure. -/
def Measured (it : Iter σ α) (m : σ → Nat) : Prop :=
  ∀ s a s', it.next s = (some a, s') → m s' < m s

/-- The no-resurrection property: after a `next()` call that reports
exhaustion, every later `next()` call also reports exhaustion. -/
def SinglePass (it : Iter σ α) : Prop :=
  ∀ s, it.out s = none → ∀ k, it.out (it.stepN k (it.after s)) = none

/-- The list of items `InterleaveShortest` produces over two array iterators
holding the given suffixes, the first side being due. -/
def ilsList {α : Type} : List α → List α → List α
  | [], _ => []
  | x :: _, [] => [x]
  | x :: xs, y :: ys => x :: y :: ilsList xs ys

theorem countFrom_eq_drain_length (it : Iter σ α) :
    ∀ (f : Nat) (s : σ), it.countFrom f s = (it.drain f s).length := by
  intro f
  induction f with
  | zero => intro s; rfl
  | succ f ih =>
    intro s
    simp only [Iter.countFrom, Iter.drain]
    rcases h : it.next s with ⟨v, s'⟩
    cases v with
    | none => rfl
    | some a => simp [ih s']

theorem ils_drain_eq (α : Type) :
    ∀ (a : List α) (f : Nat) (b : List α), a.length + b.length < f →
      (Iter.interleaveShortest (listIter α) (listIter α)).drain f (a, b, true) =
        ilsList a b := by
  intro a
  induction a with
  | nil =>
    intro f b hf
    cases f with
    | zero => omega
    | succ f => rfl
  | cons x xs ih =>
    intro f b hf
    cases f with
    | zero => omega
    | succ f =>
      cases f with
      | zero => simp only [List.length_cons] at hf; omega
      | succ f =>
        cases b with
        | nil => rfl
        | cons y ys =>
          have hrec := ih f ys (by simp only [List.length_cons] at hf; omega)
          show x :: y ::
              (Iter.interleaveShortest (listIter α) (listIter α)).drain f
                (xs, ys, true) =
            x :: y :: ilsList xs ys
          rw [hrec]

theorem ilsList_length (α : Type) :
    ∀ (a b : List α), (ilsList a b).length =
      2 * min a.length b.length + (if b.length < a.length then 1 else 0) := by
  intro a
  induction a with
  | nil => intro b; simp [ilsList]
  | cons x xs ih =>
    intro b
    cases b with
    | nil => simp [ilsList]
    | cons y ys =>
      simp only [ilsList, List.length_cons, ih ys]
      by_cases h : ys.length < xs.length
      · rw [if_pos h, if_pos (by omega)]
        omega
      · rw [if_neg h, if_neg (by omega)]
        omega

/-- C1: over any two finite sources, `InterleaveShortest` reports exhaustion
the moment the side due on a call is exhausted, with no fallback: the items
it yields are `ilsList A B` (the alternation truncated at the first on-turn
exhaustion), and its `count()` is `2 * min(len A, len B)`, plus 1 exactly
when the first side (which goes first) is the longer one. -/
theorem interleave_shortest_count (α : Type) (a b : List α) :
    (Iter.interleaveShortest (listIter α) (listIter α)).drain
        (a.length + b.length + 1) (a, b, true) = ilsList a b ∧
      (Iter.interleaveShortest (listIter α) (listIter α)).countFrom
          (a.length + b.length + 1) (a, b, true) =
        2 * min a.length b.length + (if b.length < a.length then 1 else 0) := by
  have hd := ils_drain_eq α a (a.length + b.length + 1) b (by omega)
  refine ⟨hd, ?_⟩
  rw [countFrom_eq_drain_length, hd, ilsList_length]

theorem pullWhile_listIter (α : Type) (p : α → Bool) :
    ∀ (l : List α) (f : Nat), l.length < f →
      (listIter α).pullWhile p f l =
        ((l.dropWhile p).head?, (l.dropWhile p).tail) := by
  intro l
  induction l with
  | nil =>
    intro f hf
    cases f with
    | zero => omega
    | succ f => rfl
  | cons x xs ih =>
    intro f hf
    cases f with
    | zero => omega
    | succ f =>
      simp only [Iter.pullWhile, listIter, List.dropWhile]
      by_cases hp : p x
      · simpa [hp] using ih f (by simp only [List.length_cons] at hf; omega)
      · simp [hp]

theorem skipWhile_passthrough_drain (α : Type) (p : α → Bool) :
    ∀ (m : List α) (f : Nat), m.length < f →
      ((listIter α).skipWhile List.length p).drain f (m, true) = m := by
  intro m
  induction m with
  | nil =>
    intro f hf
    cases f with
    | zero => omega
    | succ f => rfl
  | cons x xs ih =>
    intro f hf
    cases f with
    | zero => omega
    | succ f =>
      show x :: ((listIter α).skipWhile List.length p).drain f (xs, true) = x :: xs
      rw [ih f (by simp only [List.length_cons] at hf; omega)]

/-- C6: `SkipWhile`'s first `next()` pulls and discards while `p` holds and
returns the first item falsifying `p` (or exhaustion), latching the `skipped`
flag; afterwards it is a plain delegation in which the predicate no longer
occurs — swapping the predicate for any other changes nothing — so the items
produced are exactly `dropWhile p` of the source, later `p`-satisfying items
included. -/
theorem skip_while_first_call_closes (α : Type) (p q : α → Bool) (l : List α) :
    ((listIter α).skipWhile List.length p).next (l, false) =
        ((l.dropWhile p).head?, ((l.dropWhile p).tail, true)) ∧
      (∀ (σ : Type) (it : Iter σ α) (m : σ → Nat) (s : σ),
        (it.skipWhile m p).next (s, true) = (it.skipWhile m q).next (s, true)) ∧
      ((listIter α).skipWhile List.length p).drain (l.length + 1) (l, false) =
        l.dropWhile p := by
  have hfirst : ((listIter α).skipWhile List.length p).next (l, false) =
      ((l.dropWhile p).head?, ((l.dropWhile p).tail, true)) := by
    show (((listIter α).pullWhile p (l.length + 1) l).1,
        (((listIter α).pullWhile p (l.length + 1) l).2, true)) = _
    rw [pullWhile_listIter α p l (l.length + 1) (by omega)]
  refine ⟨hfirst, fun σ it m s => rfl, ?_⟩
  have hlen : (l.dropWhile p).length ≤ l.length :=
    (List.dropWhile_sublist (p := p) (l := l)).length_le
  simp only [Iter.drain]
  rw [hfirst]
  rcases hdw : l.dropWhile p with _ | ⟨x, rest⟩
  · rfl
  · show x :: ((listIter α).skipWhile List.length p).drain l.length (rest, true) =
      x :: rest
    rw [skipWhile_passthrough_drain α p rest l.length
      (by rw [hdw] at hlen; simp only [List.length_cons] at hlen; omega)]

/-- C7: on an already-exhausted iterator (the first pull reports nothing) the
terminal queries return their documented defaults: `all` is `true`, `any` is
`false`, `none` is `true`, and `max`, `min` and `find` return the explicit
empty optional — the embedded operations are total functions, never an
exception. -/
theorem empty_terminal_queries {σ α : Type} (it : Iter σ α) (s : σ)
    (p : α → Bool) (gtB ltB : α → α → Bool) (f : Nat)
    (h : (it.next s).1 = none) :
    it.allFrom p (f + 1) s = true ∧ it.anyFrom p (f + 1) s = false ∧
      it.noneFrom p (f + 1) s = true ∧ it.maxFrom gtB f s = none ∧
      it.minFrom ltB f s = none ∧ it.findFrom p (f + 1) s = none := by
  rcases hn : it.next s with ⟨v, s'⟩
  rw [hn] at h
  cases v with
  | some a => exact absurd h (by simp)
  | none =>
    refine ⟨?_, ?_, ?_, ?_, ?_, ?_⟩ <;>
      simp [Iter.allFrom, Iter.anyFrom, Iter.noneFrom, Iter.maxFrom,
        Iter.minFrom, Iter.findFrom, hn]

theorem empty_terminal_queries_witness :
    ((listIter Nat).next []).1 = none ∧
      ((listIter Nat).allFrom (fun v => v % 2 = 0) 1 [] = true ∧
        (listIter Nat).anyFrom (fun v => v % 2 = 0) 1 [] = false ∧
        (listIter Nat).noneFrom (fun v => v % 2 = 0) 1 [] = true ∧
        (listIter Nat).maxFrom (fun v b => decide (b < v)) 0 [] = none ∧
        (listIter Nat).minFrom (fun v b => decide (v < b)) 0 [] = none ∧
        (listIter Nat).findFrom (fun v => v % 2 = 0) 1 [] = none) :=
  ⟨rfl, empty_terminal_queries (listIter Nat) [] (fun v => v % 2 = 0)
    (fun v b => decide (b < v)) (fun v b => decide (v < b)) 0 rfl⟩

/-- C10: each `Zip::next` call pulls from the first iterator first, so the
first iterator's state always advances by exactly that pull; when the first
side produced an item but the second is exhausted, the pair is dropped — the
call reports exhaustion although the first side's item was consumed and
discarded — and when the first side is exhausted the second iterator is not
pulled at all, leaving its state unchanged. -/
theorem zip_pulls_first_and_discards {σ₁ σ₂ α β : Type}
    (it1 : Iter σ₁ α) (it2 : Iter σ₂ β) (s1 : σ₁) (s2 : σ₂) :
    ((it1.zip it2).next (s1, s2)).2.1 = (it1.next s1).2 ∧
      ((it1.next s1).1 = none →
        (it1.zip it2).next (s1, s2) = (none, ((it1.next s1).2, s2))) ∧
      (∀ a, (it1.next s1).1 = some a → (it2.next s2).1 = none →
        (it1.zip it2).next (s1, s2) = (none, ((it1.next s1).2, (it2.next s2).2))) := by
  rcases h1 : it1.next s1 with ⟨v1, s1'⟩
  cases v1 with
  | none =>
    refine ⟨?_, fun _ => ?_, fun a ha _ => ?_⟩ <;>
      simp [Iter.zip, h1] at *
  | some a =>
    rcases h2 : it2.next s2 with ⟨v2, s2'⟩
    cases v2 with
    | none =>
      refine ⟨?_, fun hcon => ?_, fun b hb hn => ?_⟩ <;>
        simp [Iter.zip, h1, h2] at *
    | some b =>
      refine ⟨?_, fun hcon => ?_, fun c hc hn => ?_⟩ <;>
        simp [Iter.zip, h1, h2] at *

theorem zip_pulls_first_and_discards_witness :
    ((listIter Nat).zip (listIter Bool)).next ([1], []) =
        (none, ([], ([] : List Bool))) ∧
      ((listIter Nat).next [1]).1 = some 1 ∧ ((listIter Bool).next []).1 = none :=
  ⟨(zip_pulls_first_and_discards (listIter Nat) (listIter Bool) [1] []).2.2 1
    rfl rfl, rfl, rfl⟩

theorem discardUpTo_listIter (α : Type) :
    ∀ (l : List α) (n : Nat), l.length ≤ n →
      (listIter α).discardUpTo n l = [] := by
  intro l
  induction l with
  | nil =>
    intro n hn
    cases n with
    | zero => rfl
    | succ n => rfl
  | cons x xs ih =>
    intro n hn
    cases n with
    | zero => simp at hn
    | succ n =>
      show (listIter α).discardUpTo n xs = []
      exact ih n (by simp only [List.length_cons] at hn; omega)

/-- If a state is a fixed point of `next` that reports exhaustion, every
later call reports exhaustion as well. -/
theorem out_of_none_fixpoint {σ α : Type} (it : Iter σ α) (s : σ)
    (h : it.next s = (none, s)) : ∀ k, it.out (it.stepN k s) = none := by
  intro k
  induction k with
  | zero => simp [Iter.out, Iter.stepN, h]
  | succ k ih =>
    have hstep : it.stepN (k + 1) s = it.stepN k s := by
      show it.stepN k (it.after s) = it.stepN k s
      rw [Iter.after, h]
    rw [hstep]
    exact ih

/-- C9: `StepBy` with the out-of-contract step 0 — the discard loop
`for (size_t i = 1; i != 0; ++i)` runs `2 ^ 64 - 1` times unless a pull
fails first — yields the first item of a non-empty finite source on the
first call while draining the whole remainder, reports exhaustion on every
later call, and so counts 1 item on a non-empty source and 0 on an empty
one. -/
theorem step_by_zero (α : Type) (x : α) (xs : List α)
    (h : xs.length ≤ Iter.sizeTMod - 1) :
    ((listIter α).stepBy 0).next (x :: xs) = (some x, []) ∧
      ((listIter α).stepBy 0).next ([] : List α) = (none, []) ∧
      (∀ k, ((listIter α).stepBy 0).out
        (((listIter α).stepBy 0).stepN k ([] : List α)) = none) ∧
      ((listIter α).stepBy 0).drain 2 (x :: xs) = [x] ∧
      ((listIter α).stepBy 0).countFrom 2 (x :: xs) = 1 ∧
      ((listIter α).stepBy 0).countFrom 1 ([] : List α) = 0 := by
  have hiters : Iter.stepIters 0 = Iter.sizeTMod - 1 := rfl
  have hfirst : ((listIter α).stepBy 0).next (x :: xs) = (some x, []) := by
    show (some x, (listIter α).discardUpTo (Iter.stepIters 0) xs) = (some x, [])
    rw [hiters, discardUpTo_listIter α xs (Iter.sizeTMod - 1) h]
  have hdrain : ((listIter α).stepBy 0).drain 2 (x :: xs) = [x] := by
    simp only [Iter.drain]
    rw [hfirst]
    rfl
  refine ⟨hfirst, rfl, out_of_none_fixpoint _ _ rfl, hdrain, ?_, rfl⟩
  rw [countFrom_eq_drain_length, hdrain]
  rfl

theorem step_by_zero_witness :
    (([7] : List Nat).length ≤ Iter.sizeTMod - 1) ∧
      ((listIter Nat).stepBy 0).next [5, 7] = (some 5, []) ∧
      ((listIter Nat).stepBy 0).drain 2 [5, 7] = [5] := by
  have hlen : ([7] : List Nat).length ≤ Iter.sizeTMod - 1 := by
    simp only [List.length_cons, List.length_nil, Iter.sizeTMod]
    norm_num
  have hmain := step_by_zero Nat 5 [7] hlen
  exact ⟨hlen, hmain.1, hmain.2.2.2.1⟩

theorem get_congr_idx {α : Type} (l : List α) {i₁ i₂ : Nat}
    (h1 : i₁ < l.length) (h2 : i₂ < l.length) (e : i₁ = i₂) :
    l.get ⟨i₁, h1⟩ = l.get ⟨i₂, h2⟩ := by
  subst e
  rfl

theorem cycle_take_drain_aux (α : Type) (l : List α) (hl : l ≠ []) :
    ∀ (k j : Nat), j ≤ l.length →
      ((listIter α).cycle.take).drain (k + 1) ((l, l.drop j), k) =
        List.ofFn (fun i : Fin k =>
          l.get ⟨(j + i.1) % l.length, Nat.mod_lt _ (List.length_pos.mpr hl)⟩) := by
  have hpos : 0 < l.length := List.length_pos.mpr hl
  have hnext : (listIter α).next l = (some (l.get ⟨0, hpos⟩), l.drop 1) := by
    rcases l with _ | ⟨a, t⟩
    · exact absurd rfl hl
    · rfl
  intro k
  induction k with
  | zero =>
    intro j hj
    simp only [List.ofFn_zero]
    rfl
  | succ k ih =>
    intro j hj
    by_cases hjlt : j < l.length
    · rw [List.drop_eq_getElem_cons hjlt]
      show l.get ⟨j, hjlt⟩ ::
          ((listIter α).cycle.take).drain (k + 1) ((l, l.drop (j + 1)), k) = _
      rw [ih (j + 1) (by omega), List.ofFn_succ]
      congr 1
      · exact get_congr_idx l hjlt _ (Nat.mod_eq_of_lt hjlt).symm
      · refine congrArg List.ofFn (funext fun i => get_congr_idx l _ _ ?_)
        simp only [Fin.val_succ]
        rw [show j + 1 + i.1 = j + (i.1 + 1) from by omega]
    · have hje : j = l.length := by omega
      subst hje
      rw [List.drop_length]
      have hstep : ((listIter α).cycle.take).next ((l, ([] : List α)), k + 1) =
          (some (l.get ⟨0, hpos⟩), ((l, l.drop 1), k)) := by
        show (((listIter α).next l).1, ((l, ((listIter α).next l).2), k)) = _
        rw [hnext]
      rw [Iter.drain.eq_2]
      rw [hstep]
      show l.get ⟨0, hpos⟩ ::
          ((listIter α).cycle.take).drain (k + 1) ((l, l.drop 1), k) = _
      rw [ih 1 (by omega), List.ofFn_succ]
      congr 1
      · exact get_congr_idx l hpos _ (by simp [Nat.mod_self])
      · refine congrArg List.ofFn (funext fun i => get_congr_idx l _ _ ?_)
        simp only [Fin.val_succ]
        rw [Nat.add_comm 1 i.1]
        rw [show l.length + (i.1 + 1) = (i.1 + 1) + l.length from by omega]
        rw [Nat.add_mod_right]

/-- C4: for a non-empty source of length `L`, `cycle().take(k)` yields at
every position `i < k` exactly the source item at position `i mod L` — the
working copy is reset to the preserved original on inner exhaustion and
retried once — while over an empty source `cycle()` reports exhaustion on
every `next()` call (the exhausted state is a fixed point; no infinite
loop). -/
theorem cycle_take_mod (α : Type) (l : List α) (hl : l ≠ []) (k : Nat) :
    ((listIter α).cycle.take).drain (k + 1) ((l, l), k) =
        List.ofFn (fun i : Fin k =>
          l.get ⟨i.1 % l.length, Nat.mod_lt _ (List.length_pos.mpr hl)⟩) ∧
      ∀ n, ((listIter α).cycle).out
        (((listIter α).cycle).stepN n (([], []) : List α × List α)) = none := by
  constructor
  · have := cycle_take_drain_aux α l hl k 0 (by omega)
    rw [List.drop_zero] at this
    rw [this]
    exact congrArg List.ofFn (funext fun i =>
      get_congr_idx l _ _ (by simp only [Nat.zero_add]))
  · exact out_of_none_fixpoint ((listIter α).cycle) ([], []) rfl

theorem cycle_take_mod_witness :
    (([1, 2] : List Nat) ≠ []) ∧
      ((listIter Nat).cycle.take).drain 6 (([1, 2], [1, 2]), 5) =
        [1, 2, 1, 2, 1] :=
  ⟨by decide, ((cycle_take_mod Nat [1, 2] (by decide) 5).1).trans (by decide)⟩

/-- The body of `Iterator::max`'s loop as a fold step: replace the running
best only on strict improvement (`v > max`). -/
def maxStep {α : Type} [LinearOrder α] (best v : α) : α := if best < v then v else best

/-- The body of `Iterator::min`'s loop as a fold step: replace the running
best only on strict improvement (`v < min`). -/
def minStep {α : Type} [LinearOrder α] (best v : α) : α := if v < best then v else best

theorem le_foldl_max {α : Type} [LinearOrder α] :
    ∀ (t : List α) (b : α), b ≤ t.foldl maxStep b := by
  intro t
  induction t with
  | nil => intro b; simp
  | cons v t ih =>
    intro b
    simp only [List.foldl_cons]
    refine le_trans ?_ (ih (maxStep b v))
    by_cases h : b < v
    · simp [maxStep, h, le_of_lt h]
    · simp [maxStep, h]

theorem ge_foldl_min {α : Type} [LinearOrder α] :
    ∀ (t : List α) (b : α), t.foldl minStep b ≤ b := by
  intro t
  induction t with
  | nil => intro b; simp
  | cons v t ih =>
    intro b
    simp only [List.foldl_cons]
    refine le_trans (ih (minStep b v)) ?_
    by_cases h : v < b
    · simp [minStep, h, le_of_lt h]
    · simp [minStep, h]

theorem foldl_max_split {α : Type} [LinearOrder α] :
    ∀ (t : List α) (b : α),
      ∃ l₁ l₂ : List α,
        b :: t = l₁ ++ t.foldl maxStep b :: l₂ ∧
          (∀ x ∈ l₁, x < t.foldl maxStep b) ∧
          (∀ x ∈ l₂, x ≤ t.foldl maxStep b) := by
  intro t
  induction t with
  | nil => intro b; exact ⟨[], [], rfl, by simp, by simp⟩
  | cons v t ih =>
    intro b
    simp only [List.foldl_cons]
    by_cases hlt : b < v
    · rw [show maxStep b v = v from if_pos hlt]
      obtain ⟨l₁, l₂, heq, h₁, h₂⟩ := ih v
      refine ⟨b :: l₁, l₂, ?_, ?_, h₂⟩
      · show b :: (v :: t) = b :: (l₁ ++ t.foldl maxStep v :: l₂)
        exact congrArg (b :: ·) heq
      · intro x hx
        rcases List.mem_cons.mp hx with hxb | hxl
        · subst hxb
          exact lt_of_lt_of_le hlt (le_foldl_max t v)
        · exact h₁ x hxl
    · rw [show maxStep b v = b from if_neg hlt]
      obtain ⟨l₁, l₂, heq, h₁, h₂⟩ := ih b
      cases l₁ with
      | nil =>
        simp only [List.nil_append] at heq
        obtain ⟨hbr, htl⟩ := List.cons.inj heq
        refine ⟨[], v :: l₂, ?_, by simp, ?_⟩
        · show b :: v :: t = t.foldl maxStep b :: v :: l₂
          rw [← hbr, ← htl]
        · intro x hx
          rcases List.mem_cons.mp hx with hxv | hxl
          · subst hxv
            rw [← hbr]
            exact le_of_not_lt hlt
          · exact h₂ x hxl
      | cons c l₁' =>
        simp only [List.cons_append] at heq
        obtain ⟨hcb, htl⟩ := List.cons.inj heq
        subst hcb
        refine ⟨b :: v :: l₁', l₂, ?_, ?_, h₂⟩
        · show b :: v :: t = b :: v :: (l₁' ++ t.foldl maxStep b :: l₂)
          conv_lhs => rw [htl]
        · intro x hx
          have hbres : b < t.foldl maxStep b := h₁ b (List.mem_cons_self b l₁')
          rcases List.mem_cons.mp hx with hxb | hx'
          · subst hxb; exact hbres
          · rcases List.mem_cons.mp hx' with hxv | hxl
            · subst hxv
              exact lt_of_le_of_lt (le_of_not_lt hlt) hbres
            · exact h₁ x (List.mem_cons_of_mem b hxl)

theorem foldl_min_split {α : Type} [LinearOrder α] :
    ∀ (t : List α) (b : α),
      ∃ l₁ l₂ : List α,
        b :: t = l₁ ++ t.foldl minStep b :: l₂ ∧
          (∀ x ∈ l₁, t.foldl minStep b < x) ∧
          (∀ x ∈ l₂, t.foldl minStep b ≤ x) := by
  intro t
  induction t with
  | nil => intro b; exact ⟨[], [], rfl, by simp, by simp⟩
  | cons v t ih =>
    intro b
    simp only [List.foldl_cons]
    by_cases hlt : v < b
    · rw [show minStep b v = v from if_pos hlt]
      obtain ⟨l₁, l₂, heq, h₁, h₂⟩ := ih v
      refine ⟨b :: l₁, l₂, ?_, ?_, h₂⟩
      · show b :: (v :: t) = b :: (l₁ ++ t.foldl minStep v :: l₂)
        exact congrArg (b :: ·) heq
      · intro x hx
        rcases List.mem_cons.mp hx with hxb | hxl
        · subst hxb
          exact lt_of_le_of_lt (ge_foldl_min t v) hlt
        · exact h₁ x hxl
    · rw [show minStep b v = b from if_neg hlt]
      obtain ⟨l₁, l₂, heq, h₁, h₂⟩ := ih b
      cases l₁ with
      | nil =>
        simp only [List.nil_append] at heq
        obtain ⟨hbr, htl⟩ := List.cons.inj heq
        refine ⟨[], v :: l₂, ?_, by simp, ?_⟩
        · show b :: v :: t = t.foldl minStep b :: v :: l₂
          rw [← hbr, ← htl]
        · intro x hx
          rcases List.mem_cons.mp hx with hxv | hxl
          · subst hxv
            rw [← hbr]
            exact le_of_not_lt hlt
          · exact h₂ x hxl
      | cons c l₁' =>
        simp only [List.cons_append] at heq
        obtain ⟨hcb, htl⟩ := List.cons.inj heq
        subst hcb
        refine ⟨b :: v :: l₁', l₂, ?_, ?_, h₂⟩
        · show b :: v :: t = b :: v :: (l₁' ++ t.foldl minStep b :: l₂)
          conv_lhs => rw [htl]
        · intro x hx
          have hbres : t.foldl minStep b < b := h₁ b (List.mem_cons_self b l₁')
          rcases List.mem_cons.mp hx with hxb | hx'
          · subst hxb; exact hbres
          · rcases List.mem_cons.mp hx' with hxv | hxl
            · subst hxv
              exact lt_of_lt_of_le hbres (le_of_not_lt hlt)
            · exact h₁ x (List.mem_cons_of_mem b hxl)

theorem maxLoop_listIter (α : Type) (gtB : α → α → Bool) :
    ∀ (t : List α) (f : Nat) (b : α), t.length < f →
      (listIter α).maxLoop gtB f t b =
        t.foldl (fun best v => if gtB v best then v else best) b := by
  intro t
  induction t with
  | nil =>
    intro f b hf
    cases f with
    | zero => omega
    | succ f => rfl
  | cons v t ih =>
    intro f b hf
    cases f with
    | zero => omega
    | succ f =>
      show (listIter α).maxLoop gtB f t (if gtB v b then v else b) = _
      rw [List.foldl_cons]
      exact ih f _ (by simp only [List.length_cons] at hf; omega)

theorem minLoop_listIter (α : Type) (ltB : α → α → Bool) :
    ∀ (t : List α) (f : Nat) (b : α), t.length < f →
      (listIter α).minLoop ltB f t b =
        t.foldl (fun best v => if ltB v best then v else best) b := by
  intro t
  induction t with
  | nil =>
    intro f b hf
    cases f with
    | zero => omega
    | succ f => rfl
  | cons v t ih =>
    intro f b hf
    cases f with
    | zero => omega
    | succ f =>
      show (listIter α).minLoop ltB f t (if ltB v b then v else b) = _
      rw [List.foldl_cons]
      exact ih f _ (by simp only [List.length_cons] at hf; omega)

/-- C8: the default `max` (and symmetrically `min`) folds with strict `>`
(respectively `<`) and replaces the running best only on strict improvement,
so the returned item splits the non-empty source as `l₁ ++ r :: l₂` with
everything before `r` strictly below (above) it — i.e. the first-seen
maximal (minimal) item wins exact ties; in particular `min` of
`["aaa", "aa", "b"]` under the default lexicographic order is `"aa"`. -/
theorem max_min_first_tie (α : Type) [LinearOrder α] (l : List α) (hl : l ≠ []) :
    (∃ r l₁ l₂, (listIter α).maxFrom (fun v best => decide (best < v)) l.length l
        = some r ∧
        l = l₁ ++ r :: l₂ ∧ (∀ x ∈ l₁, x < r) ∧ (∀ x ∈ l₂, x ≤ r)) ∧
      (∃ r l₁ l₂, (listIter α).minFrom (fun v best => decide (v < best)) l.length l
        = some r ∧
        l = l₁ ++ r :: l₂ ∧ (∀ x ∈ l₁, r < x) ∧ (∀ x ∈ l₂, r ≤ x)) ∧
      (listIter (List Char)).minFrom (fun v best => decide (v < best)) 3
          [['a', 'a', 'a'], ['a', 'a'], ['b']] = some ['a', 'a'] := by
  rcases l with _ | ⟨a, t⟩
  · exact absurd rfl hl
  · have hmaxfn : (fun (best v : α) => if decide (best < v) then v else best) =
        fun best v => maxStep best v := by
      funext b v
      by_cases h : b < v <;> simp [maxStep, h]
    have hminfn : (fun (best v : α) => if decide (v < best) then v else best) =
        fun best v => minStep best v := by
      funext b v
      by_cases h : v < b <;> simp [minStep, h]
    refine ⟨?_, ?_, by decide⟩
    · have hloop := maxLoop_listIter α (fun v best => decide (best < v)) t
        (a :: t).length a (by simp)
      obtain ⟨l₁, l₂, heq, h₁, h₂⟩ := foldl_max_split t a
      refine ⟨t.foldl maxStep a, l₁, l₂, ?_, heq, h₁, h₂⟩
      show some ((listIter α).maxLoop (fun v best => decide (best < v))
        (a :: t).length t a) = _
      rw [hloop, hmaxfn]
    · have hloop := minLoop_listIter α (fun v best => decide (v < best)) t
        (a :: t).length a (by simp)
      obtain ⟨l₁, l₂, heq, h₁, h₂⟩ := foldl_min_split t a
      refine ⟨t.foldl minStep a, l₁, l₂, ?_, heq, h₁, h₂⟩
      show some ((listIter α).minLoop (fun v best => decide (v < best))
        (a :: t).length t a) = _
      rw [hloop, hminfn]

theorem max_min_first_tie_witness :
    (listIter (List Char)).minFrom (fun v best => decide (v < best)) 3
        [['a', 'a', 'a'], ['a', 'a'], ['b']] = some ['a', 'a'] :=
  (max_min_first_tie (List Char) [['a', 'a', 'a'], ['a', 'a'], ['b']]
    (by decide)).2.2

theorem listIter_drain (α : Type) :
    ∀ (xs : List α) (f : Nat), xs.length < f →
      (listIter α).drain f xs = xs := by
  intro xs
  induction xs with
  | nil =>
    intro f hf
    cases f with
    | zero => omega
    | succ f => rfl
  | cons x t ih =>
    intro f hf
    cases f with
    | zero => omega
    | succ f =>
      show x :: (listIter α).drain f t = x :: t
      rw [ih f (by simp only [List.length_cons] at hf; omega)]

theorem fillLoop_writes {σ α : Type} (it : Iter σ α) :
    ∀ (f : Nat) (s : σ) (idx : Nat) (arr : List α),
      idx + (it.drain f s).length ≤ arr.length →
      it.fillLoop f (s, idx) arr =
        arr.take idx ++ it.drain f s ++ arr.drop (idx + (it.drain f s).length) := by
  intro f
  induction f with
  | zero =>
    intro s idx arr h
    show arr = arr.take idx ++ [] ++ arr.drop (idx + ([] : List α).length)
    simp [List.take_append_drop]
  | succ f ih =>
    intro s idx arr h
    rcases hn : it.next s with ⟨v, s'⟩
    cases v with
    | none =>
      have hdr : it.drain (f + 1) s = [] := by
        simp [Iter.drain, hn]
      have hfl : it.fillLoop (f + 1) (s, idx) arr = arr := by
        simp [Iter.fillLoop, Iter.enumerate, hn]
      rw [hfl, hdr]
      simp [List.take_append_drop]
    | some a =>
      have hdr : it.drain (f + 1) s = a :: it.drain f s' := by
        simp [Iter.drain, hn]
      have hfl : it.fillLoop (f + 1) (s, idx) arr =
          it.fillLoop f (s', idx + 1) (arr.set idx a) := by
        simp [Iter.fillLoop, Iter.enumerate, hn]
      rw [hdr] at h ⊢
      rw [hfl]
      have hidx : idx < arr.length := by
        simp only [List.length_cons] at h
        omega
      have hlen' : idx + 1 + (it.drain f s').length ≤ (arr.set idx a).length := by
        rw [List.length_set]
        simp only [List.length_cons] at h
        omega
      rw [ih s' (idx + 1) (arr.set idx a) hlen']
      rw [List.drop_set, if_pos (by omega)]
      rw [List.set_eq_take_append_cons_drop, if_pos hidx]
      rw [List.take_append_eq_append_take, List.take_take, List.length_take]
      rw [Nat.min_eq_right (by omega : idx ≤ idx + 1),
        Nat.min_eq_left (le_of_lt hidx)]
      rw [show idx + 1 - idx = 1 from by omega]
      simp only [List.length_cons, List.take_cons, List.take_zero,
        List.append_assoc, List.cons_append, List.nil_append, List.singleton_append]
      rw [show idx + ((it.drain f s').length + 1) = idx + 1 + (it.drain f s').length
        from by omega]
      simp

/-- C3: `collect`/`Array::from_iterator` materializes a finite iterator by
the two-pass algorithm — count through an independent clone, allocate that
many default slots, then walk the original once with `Enumerate`, writing
each item into its slot — producing exactly the iterator's remaining items;
re-iterating the materialized array yields the same sequence in the same
order. -/
theorem collect_round_trip {σ α : Type} [Inhabited α] (it : Iter σ α)
    (fuel : Nat) (s : σ) :
    it.fromIterator fuel s = it.drain fuel s ∧
      (listIter α).drain ((it.fromIterator fuel s).length + 1)
        (it.fromIterator fuel s) = it.drain fuel s := by
  have hmain : it.fromIterator fuel s = it.drain fuel s := by
    show it.fillLoop fuel (s, 0)
      (List.replicate (it.countFrom fuel s) (default : α)) = _
    rw [countFrom_eq_drain_length]
    rw [fillLoop_writes it fuel s 0 _
      (by rw [List.length_replicate]; omega)]
    have hdrop : (List.replicate (it.drain fuel s).length (default : α)).drop
        (0 + (it.drain fuel s).length) = [] :=
      List.drop_eq_nil_of_le (by rw [List.length_replicate]; omega)
    rw [hdrop, List.take_zero]
    simp
  refine ⟨hmain, ?_⟩
  rw [hmain]
  exact listIter_drain α _ _ (by omega)

theorem singlePass_of_consecutive {σ α : Type} (it : Iter σ α)
    (h : ∀ s, it.out s = none → it.out (it.after s) = none) : SinglePass it := by
  have key : ∀ (k : Nat) (s : σ), it.out s = none →
      it.out (it.stepN k (it.after s)) = none := by
    intro k
    induction k with
    | zero => intro s hs; exact h s hs
    | succ k ih =>
      intro s hs
      show it.out (it.stepN k (it.after (it.after s))) = none
      exact ih (it.after s) (h s hs)
  exact fun s hs k => key k s hs

theorem spStepBy {σ α : Type} (it : Iter σ α) (k : Nat) (h : SinglePass it) :
    SinglePass (it.stepBy k) := by
  have hcon : ∀ s, (it.next s).1 = none → (it.next (it.next s).2).1 = none :=
    fun s hs => h s hs 0
  have hiff : ∀ t, ((it.stepBy k).next t).1 = none ↔ (it.next t).1 = none := by
    intro t
    rcases hn : it.next t with ⟨v, t'⟩
    cases v <;> simp [Iter.stepBy, hn]
  have hafter : ∀ t, (it.next t).1 = none →
      ((it.stepBy k).next t).2 = (it.next t).2 := by
    intro t ht
    rcases hn : it.next t with ⟨v, t'⟩
    rw [hn] at ht
    cases v with
    | none => simp [Iter.stepBy, hn]
    | some a => simp at ht
  apply singlePass_of_consecutive
  intro s hs
  rw [Iter.out] at hs
  have h1 := (hiff s).1 hs
  show ((it.stepBy k).next ((it.stepBy k).after s)).1 = none
  rw [Iter.after, hafter s h1]
  exact (hiff _).2 (hcon s h1)

theorem spMap {σ α β : Type} (it : Iter σ α) (f : α → β) (h : SinglePass it) :
    SinglePass (it.map f) := by
  have hcon : ∀ s, (it.next s).1 = none → (it.next (it.next s).2).1 = none :=
    fun s hs => h s hs 0
  have hiff : ∀ t, ((it.map f).next t).1 = none ↔ (it.next t).1 = none := by
    intro t
    rcases hn : it.next t with ⟨v, t'⟩
    cases v <;> simp [Iter.map, hn]
  have hafter : ∀ t, (it.next t).1 = none →
      ((it.map f).next t).2 = (it.next t).2 := by
    intro t ht
    rcases hn : it.next t with ⟨v, t'⟩
    rw [hn] at ht
    cases v with
    | none => simp [Iter.map, hn]
    | some a => simp at ht
  apply singlePass_of_consecutive
  intro s hs
  rw [Iter.out] at hs
  have h1 := (hiff s).1 hs
  show ((it.map f).next ((it.map f).after s)).1 = none
  rw [Iter.after, hafter s h1]
  exact (hiff _).2 (hcon s h1)

theorem spSkip {σ α : Type} (it : Iter σ α) (h : SinglePass it) :
    SinglePass it.skip := by
  have hcon : ∀ s, (it.next s).1 = none → (it.next (it.next s).2).1 = none :=
    fun s hs => h s hs 0
  have hchar : ∀ (si : σ) (k : Nat), ∃ u,
      it.skip.next (si, k) = ((it.next u).1, ((it.next u).2, 0)) := by
    intro si k
    cases k with
    | zero => exact ⟨si, rfl⟩
    | succ k => exact ⟨it.pullN (k + 1) si, rfl⟩
  apply singlePass_of_consecutive
  rintro ⟨si, k⟩ hs
  obtain ⟨u, hu⟩ := hchar si k
  rw [Iter.out, hu] at hs
  show (it.skip.next (it.skip.after (si, k))).1 = none
  rw [Iter.after, hu]
  show (it.next ((it.next u).2)).1 = none
  exact hcon u hs

theorem spEnumerate {σ α : Type} (it : Iter σ α) (h : SinglePass it) :
    SinglePass it.enumerate := by
  have hcon : ∀ s, (it.next s).1 = none → (it.next (it.next s).2).1 = none :=
    fun s hs => h s hs 0
  apply singlePass_of_consecutive
  rintro ⟨si, idx⟩ hs
  rcases hn : it.next si with ⟨v, s'⟩
  cases v with
  | some a => simp [Iter.out, Iter.enumerate, hn] at hs
  | none =>
    have h1 : (it.next si).1 = none := by rw [hn]
    have hafter : it.enumerate.after (si, idx) = (s', idx) := by
      simp [Iter.after, Iter.enumerate, hn]
    rw [hafter]
    have h2 : (it.next s').1 = none := by
      have := hcon si h1
      rwa [hn] at this
    rcases hn' : it.next s' with ⟨v', s''⟩
    rw [hn'] at h2
    cases v' with
    | some a => simp at h2
    | none => simp [Iter.out, Iter.enumerate, hn']

theorem spChain {σ₁ σ₂ α : Type} (it1 : Iter σ₁ α) (it2 : Iter σ₂ α)
    (h1 : SinglePass it1) (h2 : SinglePass it2) :
    SinglePass (it1.chain it2) := by
  have hcon1 : ∀ s, (it1.next s).1 = none → (it1.next (it1.next s).2).1 = none :=
    fun s hs => h1 s hs 0
  have hcon2 : ∀ s, (it2.next s).1 = none → (it2.next (it2.next s).2).1 = none :=
    fun s hs => h2 s hs 0
  apply singlePass_of_consecutive
  rintro ⟨s1, s2⟩ hs
  rcases hn1 : it1.next s1 with ⟨v1, s1'⟩
  cases v1 with
  | some a => simp [Iter.out, Iter.chain, hn1] at hs
  | none =>
    rcases hn2 : it2.next s2 with ⟨v2, s2'⟩
    cases v2 with
    | some a =>
      rw [Iter.out, show (it1.chain it2).next (s1, s2) = (some a, (s1', s2'))
        from by simp [Iter.chain, hn1, hn2]] at hs
      simp at hs
    | none =>
      have hafter : (it1.chain it2).after (s1, s2) = (s1', s2') := by
        simp [Iter.after, Iter.chain, hn1, hn2]
      rw [hafter]
      have ha1 : (it1.next s1').1 = none := by
        have := hcon1 s1 (by rw [hn1])
        rwa [hn1] at this
      have ha2 : (it2.next s2').1 = none := by
        have := hcon2 s2 (by rw [hn2])
        rwa [hn2] at this
      rcases hm1 : it1.next s1' with ⟨w1, t1⟩
      rw [hm1] at ha1
      cases w1 with
      | some a => simp at ha1
      | none =>
        rcases hm2 : it2.next s2' with ⟨w2, t2⟩
        rw [hm2] at ha2
        cases w2 with
        | some a => simp at ha2
        | none => simp [Iter.out, Iter.chain, hm1, hm2]

theorem spZip {σ₁ σ₂ α β : Type} (it1 : Iter σ₁ α) (it2 : Iter σ₂ β)
    (h1 : SinglePass it1) (h2 : SinglePass it2) :
    SinglePass (it1.zip it2) := by
  have hcon1 : ∀ s, (it1.next s).1 = none → (it1.next (it1.next s).2).1 = none :=
    fun s hs => h1 s hs 0
  have hcon2 : ∀ s, (it2.next s).1 = none → (it2.next (it2.next s).2).1 = none :=
    fun s hs => h2 s hs 0
  apply singlePass_of_consecutive
  rintro ⟨s1, s2⟩ hs
  rcases hn1 : it1.next s1 with ⟨v1, s1'⟩
  cases v1 with
  | none =>
    have hafter : (it1.zip it2).after (s1, s2) = (s1', s2) := by
      simp [Iter.after, Iter.zip, hn1]
    rw [hafter]
    have ha1 : (it1.next s1').1 = none := by
      have := hcon1 s1 (by rw [hn1])
      rwa [hn1] at this
    rcases hm1 : it1.next s1' with ⟨w1, t1⟩
    rw [hm1] at ha1
    cases w1 with
    | some a => simp at ha1
    | none => simp [Iter.out, Iter.zip, hm1]
  | some a =>
    rcases hn2 : it2.next s2 with ⟨v2, s2'⟩
    cases v2 with
    | some b =>
      rw [Iter.out, show (it1.zip it2).next (s1, s2) = (some (a, b), (s1', s2'))
        from by simp [Iter.zip, hn1, hn2]] at hs
      simp at hs
    | none =>
      have hafter : (it1.zip it2).after (s1, s2) = (s1', s2') := by
        simp [Iter.after, Iter.zip, hn1, hn2]
      rw [hafter]
      have ha2 : (it2.next s2').1 = none := by
        have := hcon2 s2 (by rw [hn2])
        rwa [hn2] at this
      rcases hm1 : it1.next s1' with ⟨w1, t1⟩
      cases w1 with
      | none => simp [Iter.out, Iter.zip, hm1]
      | some c =>
        rcases hm2 : it2.next s2' with ⟨w2, t2⟩
        rw [hm2] at ha2
        cases w2 with
        | some b => simp at ha2
        | none => simp [Iter.out, Iter.zip, hm1, hm2]

theorem spTake {σ α : Type} (it : Iter σ α) (h : SinglePass it) :
    SinglePass it.take := by
  have hcon : ∀ s, (it.next s).1 = none → (it.next (it.next s).2).1 = none :=
    fun s hs => h s hs 0
  apply singlePass_of_consecutive
  rintro ⟨si, k⟩ hs
  cases k with
  | zero => exact hs
  | succ k =>
    have hchar : it.take.next (si, k + 1) = ((it.next si).1, ((it.next si).2, k)) :=
      rfl
    rw [Iter.out, hchar] at hs
    show (it.take.next (it.take.after (si, k + 1))).1 = none
    rw [Iter.after, hchar]
    show (it.take.next ((it.next si).2, k)).1 = none
    cases k with
    | zero => rfl
    | succ k => exact hcon si hs

theorem spTakeWhile {σ α : Type} (it : Iter σ α) (p : α → Bool) :
    SinglePass (it.takeWhile p) := by
  apply singlePass_of_consecutive
  rintro ⟨si, flag⟩ hs
  cases flag with
  | true => exact hs
  | false =>
    rcases hn : it.next si with ⟨v, s'⟩
    cases v with
    | none =>
      have hafter : (it.takeWhile p).after (si, false) = (s', true) := by
        simp [Iter.after, Iter.takeWhile, hn]
      rw [hafter]
      rfl
    | some a =>
      by_cases hp : p a
      · rw [Iter.out, show (it.takeWhile p).next (si, false) = (some a, (s', false))
          from by simp [Iter.takeWhile, hn, hp]] at hs
        simp at hs
      · have hafter : (it.takeWhile p).after (si, false) = (s', true) := by
          simp [Iter.after, Iter.takeWhile, hn, hp]
        rw [hafter]
        rfl

theorem spInterleave {σ₁ σ₂ α : Type} (it1 : Iter σ₁ α) (it2 : Iter σ₂ α)
    (h1 : SinglePass it1) (h2 : SinglePass it2) :
    SinglePass (it1.interleave it2) := by
  have hcon1 : ∀ s, (it1.next s).1 = none → (it1.next (it1.next s).2).1 = none :=
    fun s hs => h1 s hs 0
  have hcon2 : ∀ s, (it2.next s).1 = none → (it2.next (it2.next s).2).1 = none :=
    fun s hs => h2 s hs 0
  apply singlePass_of_consecutive
  rintro ⟨s1, s2, flag⟩ hs
  cases flag with
  | true =>
    rcases hn1 : it1.next s1 with ⟨v1, s1'⟩
    cases v1 with
    | some a =>
      rw [Iter.out, show (it1.interleave it2).next (s1, s2, true) =
        (some a, (s1', s2, false)) from by simp [Iter.interleave, hn1]] at hs
      simp at hs
    | none =>
      rcases hn2 : it2.next s2 with ⟨v2, s2'⟩
      cases v2 with
      | some b =>
        rw [Iter.out, show (it1.interleave it2).next (s1, s2, true) =
          (some b, (s1', s2', false)) from by simp [Iter.interleave, hn1, hn2]] at hs
        simp at hs
      | none =>
        have hafter : (it1.interleave it2).after (s1, s2, true) = (s1', s2', false) := by
          simp [Iter.after, Iter.interleave, hn1, hn2]
        rw [hafter]
        have ha1 : (it1.next s1').1 = none := by
          have := hcon1 s1 (by rw [hn1])
          rwa [hn1] at this
        have ha2 : (it2.next s2').1 = none := by
          have := hcon2 s2 (by rw [hn2])
          rwa [hn2] at this
        rcases hm2 : it2.next s2' with ⟨w2, t2⟩
        rw [hm2] at ha2
        cases w2 with
        | some b => simp at ha2
        | none =>
          rcases hm1 : it1.next s1' with ⟨w1, t1⟩
          rw [hm1] at ha1
          cases w1 with
          | some a => simp at ha1
          | none => simp [Iter.out, Iter.interleave, hm1, hm2]
  | false =>
    rcases hn2 : it2.next s2 with ⟨v2, s2'⟩
    cases v2 with
    | some b =>
      rw [Iter.out, show (it1.interleave it2).next (s1, s2, false) =
        (some b, (s1, s2', true)) from by simp [Iter.interleave, hn2]] at hs
      simp at hs
    | none =>
      rcases hn1 : it1.next s1 with ⟨v1, s1'⟩
      cases v1 with
      | some a =>
        rw [Iter.out, show (it1.interleave it2).next (s1, s2, false) =
          (some a, (s1', s2', true)) from by simp [Iter.interleave, hn1, hn2]] at hs
        simp at hs
      | none =>
        have hafter : (it1.interleave it2).after (s1, s2, false) = (s1', s2', true) := by
          simp [Iter.after, Iter.interleave, hn1, hn2]
        rw [hafter]
        have ha1 : (it1.next s1').1 = none := by
          have := hcon1 s1 (by rw [hn1])
          rwa [hn1] at this
        have ha2 : (it2.next s2').1 = none := by
          have := hcon2 s2 (by rw [hn2])
          rwa [hn2] at this
        rcases hm1 : it1.next s1' with ⟨w1, t1⟩
        rw [hm1] at ha1
        cases w1 with
        | some a => simp at ha1
        | none =>
          rcases hm2 : it2.next s2' with ⟨w2, t2⟩
          rw [hm2] at ha2
          cases w2 with
          | some b => simp at ha2
          | none => simp [Iter.out, Iter.interleave, hm1, hm2]

theorem spInterleaveShortest {σ₁ σ₂ α : Type} (it1 : Iter σ₁ α) (it2 : Iter σ₂ α)
    (h1 : SinglePass it1) (h2 : SinglePass it2) :
    SinglePass (it1.interleaveShortest it2) := by
  have hcon1 : ∀ s, (it1.next s).1 = none → (it1.next (it1.next s).2).1 = none :=
    fun s hs => h1 s hs 0
  have hcon2 : ∀ s, (it2.next s).1 = none → (it2.next (it2.next s).2).1 = none :=
    fun s hs => h2 s hs 0
  apply singlePass_of_consecutive
  rintro ⟨s1, s2, flag⟩ hs
  cases flag with
  | true =>
    rcases hn1 : it1.next s1 with ⟨v1, s1'⟩
    cases v1 with
    | some a =>
      rw [Iter.out, show (it1.interleaveShortest it2).next (s1, s2, true) =
        (some a, (s1', s2, false)) from by simp [Iter.interleaveShortest, hn1]] at hs
      simp at hs
    | none =>
      have hafter : (it1.interleaveShortest it2).after (s1, s2, true) =
          (s1', s2, true) := by
        simp [Iter.after, Iter.interleaveShortest, hn1]
      rw [hafter]
      have ha1 : (it1.next s1').1 = none := by
        have := hcon1 s1 (by rw [hn1])
        rwa [hn1] at this
      rcases hm1 : it1.next s1' with ⟨w1, t1⟩
      rw [hm1] at ha1
      cases w1 with
      | some a => simp at ha1
      | none => simp [Iter.out, Iter.interleaveShortest, hm1]
  | false =>
    rcases hn2 : it2.next s2 with ⟨v2, s2'⟩
    cases v2 with
    | some b =>
      rw [Iter.out, show (it1.interleaveShortest it2).next (s1, s2, false) =
        (some b, (s1, s2', true)) from by simp [Iter.interleaveShortest, hn2]] at hs
      simp at hs
    | none =>
      have hafter : (it1.interleaveShortest it2).after (s1, s2, false) =
          (s1, s2', false) := by
        simp [Iter.after, Iter.interleaveShortest, hn2]
      rw [hafter]
      have ha2 : (it2.next s2').1 = none := by
        have := hcon2 s2 (by rw [hn2])
        rwa [hn2] at this
      rcases hm2 : it2.next s2' with ⟨w2, t2⟩
      rw [hm2] at ha2
      cases w2 with
      | some b => simp at ha2
      | none => simp [Iter.out, Iter.interleaveShortest, hm2]

theorem pullWhile_none {σ α : Type} (it : Iter σ α) (m : σ → Nat)
    (hm : Measured it m) (cont : α → Bool) :
    ∀ (f : Nat) (s : σ), m s < f → (it.pullWhile cont f s).1 = none →
      ∃ t, (it.next t).1 = none ∧ (it.pullWhile cont f s).2 = (it.next t).2 := by
  intro f
  induction f with
  | zero => intro s h0; omega
  | succ f ih =>
    intro s hf hnone
    rcases hn : it.next s with ⟨v, s'⟩
    cases v with
    | none =>
      refine ⟨s, by rw [hn], ?_⟩
      simp [Iter.pullWhile, hn]
    | some a =>
      by_cases hca : cont a
      · have hms : m s' < m s := hm s a s' hn
        have heq : it.pullWhile cont (f + 1) s = it.pullWhile cont f s' := by
          simp [Iter.pullWhile, hn, hca]
        rw [heq] at hnone ⊢
        exact ih s' (by omega) hnone
      · rw [show it.pullWhile cont (f + 1) s = (some a, s') from by
          simp [Iter.pullWhile, hn, hca]] at hnone
        simp at hnone

theorem spSkipWhile {σ α : Type} (it : Iter σ α) (m : σ → Nat) (p : α → Bool)
    (hm : Measured it m) (h : SinglePass it) :
    SinglePass (it.skipWhile m p) := by
  have hcon : ∀ s, (it.next s).1 = none → (it.next (it.next s).2).1 = none :=
    fun s hs => h s hs 0
  apply singlePass_of_consecutive
  rintro ⟨si, flag⟩ hs
  cases flag with
  | true =>
    have hchar : (it.skipWhile m p).next (si, true) =
        ((it.next si).1, ((it.next si).2, true)) := rfl
    rw [Iter.out, hchar] at hs
    show ((it.skipWhile m p).next ((it.skipWhile m p).after (si, true))).1 = none
    rw [Iter.after, hchar]
    show (it.next ((it.next si).2)).1 = none
    exact hcon si hs
  | false =>
    have hchar : (it.skipWhile m p).next (si, false) =
        ((it.pullWhile p (m si + 1) si).1,
          ((it.pullWhile p (m si + 1) si).2, true)) := rfl
    rw [Iter.out, hchar] at hs
    obtain ⟨t, ht, h2⟩ := pullWhile_none it m hm p (m si + 1) si (by omega) hs
    show ((it.skipWhile m p).next ((it.skipWhile m p).after (si, false))).1 = none
    rw [Iter.after, hchar]
    show (it.next ((it.pullWhile p (m si + 1) si).2)).1 = none
    rw [h2]
    exact hcon t ht

theorem spFilter {σ α : Type} (it : Iter σ α) (m : σ → Nat) (p : α → Bool)
    (hm : Measured it m) (h : SinglePass it) :
    SinglePass (it.filter m p) := by
  have hcon : ∀ s, (it.next s).1 = none → (it.next (it.next s).2).1 = none :=
    fun s hs => h s hs 0
  apply singlePass_of_consecutive
  intro s hs
  have hchar : ∀ t, (it.filter m p).next t =
      it.pullWhile (fun a => !p a) (m t + 1) t := fun t => rfl
  rw [Iter.out, hchar] at hs
  obtain ⟨t, ht, h2⟩ := pullWhile_none it m hm _ (m s + 1) s (by omega) hs
  show ((it.filter m p).next ((it.filter m p).after s)).1 = none
  have hafter : (it.filter m p).after s = (it.next t).2 := by
    rw [Iter.after, hchar]
    exact h2
  rw [hafter, hchar]
  have hfirst : (it.next ((it.next t).2)).1 = none := hcon t ht
  rcases hn : it.next ((it.next t).2) with ⟨v, u⟩
  rw [hn] at hfirst
  cases v with
  | some a => simp at hfirst
  | none =>
    rw [show it.pullWhile (fun a => !p a) (m (it.next t).2 + 1) (it.next t).2 =
      (none, u) from by simp [Iter.pullWhile, hn]]

theorem spUnique {σ α : Type} [DecidableEq α] (it : Iter σ α) (m : σ → Nat)
    (hm : Measured it m) (h : SinglePass it) :
    SinglePass (it.unique m) := by
  have hcon : ∀ s, (it.next s).1 = none → (it.next (it.next s).2).1 = none :=
    fun s hs => h s hs 0
  apply singlePass_of_consecutive
  rintro ⟨si, seen⟩ hs
  rcases hpw : it.pullWhile (fun a => decide (a ∈ seen)) (m si + 1) si with ⟨v, s'⟩
  cases v with
  | some a =>
    rw [Iter.out, show (it.unique m).next (si, seen) = (some a, (s', a :: seen))
      from by simp [Iter.unique, hpw]] at hs
    simp at hs
  | none =>
    obtain ⟨t, ht, h2⟩ := pullWhile_none it m hm _ (m si + 1) si (by omega)
      (by rw [hpw])
    rw [hpw] at h2
    have hafter : (it.unique m).after (si, seen) = (s', seen) := by
      simp [Iter.after, Iter.unique, hpw]
    rw [hafter]
    have hfirst : (it.next s').1 = none := by
      rw [show s' = (it.next t).2 from h2]
      exact hcon t ht
    rcases hn : it.next s' with ⟨w, u⟩
    rw [hn] at hfirst
    cases w with
    | some a => simp at hfirst
    | none =>
      have hpw' : it.pullWhile (fun a => decide (a ∈ seen)) (m s' + 1) s' =
          (none, u) := by
        simp [Iter.pullWhile, hn]
      simp [Iter.out, Iter.unique, hpw']

theorem spUniqueBy {σ α κ : Type} [DecidableEq κ] (it : Iter σ α) (m : σ → Nat)
    (key : α → κ) (hm : Measured it m) (h : SinglePass it) :
    SinglePass (it.uniqueBy m key) := by
  have hcon : ∀ s, (it.next s).1 = none → (it.next (it.next s).2).1 = none :=
    fun s hs => h s hs 0
  apply singlePass_of_consecutive
  rintro ⟨si, seen⟩ hs
  rcases hpw : it.pullWhile (fun a => decide (key a ∈ seen)) (m si + 1) si with ⟨v, s'⟩
  cases v with
  | some a =>
    rw [Iter.out, show (it.uniqueBy m key).next (si, seen) =
      (some a, (s', key a :: seen)) from by simp [Iter.uniqueBy, hpw]] at hs
    simp at hs
  | none =>
    obtain ⟨t, ht, h2⟩ := pullWhile_none it m hm _ (m si + 1) si (by omega)
      (by rw [hpw])
    rw [hpw] at h2
    have hafter : (it.uniqueBy m key).after (si, seen) = (s', seen) := by
      simp [Iter.after, Iter.uniqueBy, hpw]
    rw [hafter]
    have hfirst : (it.next s').1 = none := by
      rw [show s' = (it.next t).2 from h2]
      exact hcon t ht
    rcases hn : it.next s' with ⟨w, u⟩
    rw [hn] at hfirst
    cases w with
    | some a => simp at hfirst
    | none =>
      have hpw' : it.pullWhile (fun a => decide (key a ∈ seen)) (m s' + 1) s' =
          (none, u) := by
        simp [Iter.pullWhile, hn]
      simp [Iter.out, Iter.uniqueBy, hpw']

theorem listIter_singlePass (α : Type) : SinglePass (listIter α) := by
  apply singlePass_of_consecutive
  intro s hs
  cases s with
  | nil => rfl
  | cons a t => simp [Iter.out, listIter] at hs

theorem listIter_measured (α : Type) : Measured (listIter α) List.length := by
  intro s a s' hn
  cases s with
  | nil => simp [listIter] at hn
  | cons b t =>
    have hs' : s' = t := by
      have := congrArg Prod.snd hn
      simpa [listIter] using this.symm
    rw [hs']
    simp

/-- C5: every adapter except `Cycle` preserves the single-pass property —
given single-pass inner iterator(s) (and, for the adapters with unbounded
pull loops, a termination measure), once the adapter reports exhaustion,
every later `next()` call reports exhaustion as well (no resurrection). -/
theorem adapters_single_pass :
    (∀ (σ α : Type) (it : Iter σ α) (k : Nat),
      SinglePass it → SinglePass (it.stepBy k)) ∧
    (∀ (σ α β : Type) (it : Iter σ α) (f : α → β),
      SinglePass it → SinglePass (it.map f)) ∧
    (∀ (σ α : Type) (it : Iter σ α), SinglePass it → SinglePass it.skip) ∧
    (∀ (σ α : Type) (it : Iter σ α) (m : σ → Nat) (p : α → Bool),
      Measured it m → SinglePass it → SinglePass (it.skipWhile m p)) ∧
    (∀ (σ α : Type) (it : Iter σ α), SinglePass it → SinglePass it.enumerate) ∧
    (∀ (σ α : Type) (it : Iter σ α) (m : σ → Nat) (p : α → Bool),
      Measured it m → SinglePass it → SinglePass (it.filter m p)) ∧
    (∀ (σ₁ σ₂ α : Type) (it1 : Iter σ₁ α) (it2 : Iter σ₂ α),
      SinglePass it1 → SinglePass it2 → SinglePass (it1.chain it2)) ∧
    (∀ (σ₁ σ₂ α β : Type) (it1 : Iter σ₁ α) (it2 : Iter σ₂ β),
      SinglePass it1 → SinglePass it2 → SinglePass (it1.zip it2)) ∧
    (∀ (σ α : Type) (it : Iter σ α), SinglePass it → SinglePass it.take) ∧
    (∀ (σ α : Type) (it : Iter σ α) (p : α → Bool),
      SinglePass it → SinglePass (it.takeWhile p)) ∧
    (∀ (σ₁ σ₂ α : Type) (it1 : Iter σ₁ α) (it2 : Iter σ₂ α),
      SinglePass it1 → SinglePass it2 → SinglePass (it1.interleave it2)) ∧
    (∀ (σ₁ σ₂ α : Type) (it1 : Iter σ₁ α) (it2 : Iter σ₂ α),
      SinglePass it1 → SinglePass it2 →
        SinglePass (it1.interleaveShortest it2)) ∧
    (∀ (σ α : Type) [DecidableEq α] (it : Iter σ α) (m : σ → Nat),
      Measured it m → SinglePass it → SinglePass (it.unique m)) ∧
    (∀ (σ α κ : Type) [DecidableEq κ] (it : Iter σ α) (m : σ → Nat) (key : α → κ),
      Measured it m → SinglePass it → SinglePass (it.uniqueBy m key)) := by
  refine ⟨?_, ?_, ?_, ?_, ?_, ?_, ?_, ?_, ?_, ?_, ?_, ?_, ?_, ?_⟩
  · exact fun σ α it k h => spStepBy it k h
  · exact fun σ α β it f h => spMap it f h
  · exact fun σ α it h => spSkip it h
  · exact fun σ α it m p hm h => spSkipWhile it m p hm h
  · exact fun σ α it h => spEnumerate it h
  · exact fun σ α it m p hm h => spFilter it m p hm h
  · exact fun σ₁ σ₂ α it1 it2 h1 h2 => spChain it1 it2 h1 h2
  · exact fun σ₁ σ₂ α β it1 it2 h1 h2 => spZip it1 it2 h1 h2
  · exact fun σ α it h => spTake it h
  · exact fun σ α it p _ => spTakeWhile it p
  · exact fun σ₁ σ₂ α it1 it2 h1 h2 => spInterleave it1 it2 h1 h2
  · exact fun σ₁ σ₂ α it1 it2 h1 h2 => spInterleaveShortest it1 it2 h1 h2
  · exact fun σ α _ it m hm h => spUnique it m hm h
  · exact fun σ α κ _ it m key hm h => spUniqueBy it m key hm h

theorem adapters_single_pass_witness :
    (listIter Nat).out ([] : List Nat) = none ∧
      ((listIter Nat).stepBy 2).out (((listIter Nat).stepBy 2).stepN 1
        (((listIter Nat).stepBy 2).after ([] : List Nat))) = none ∧
      ((listIter Nat).filter List.length (fun v => v % 2 = 0)).out
        (((listIter Nat).filter List.length (fun v => v % 2 = 0)).stepN 1
          (((listIter Nat).filter List.length (fun v => v % 2 = 0)).after
            ([] : List Nat))) = none :=
  ⟨rfl,
    adapters_single_pass.1 (List Nat) Nat (listIter Nat) 2
      (listIter_singlePass Nat) [] rfl 1,
    (adapters_single_pass.2.2.2.2.2.1 (List Nat) Nat (listIter Nat) List.length
      (fun v => v % 2 = 0) (listIter_measured Nat) (listIter_singlePass Nat))
      [] rfl 1⟩

theorem collect_round_trip_witness :
    (listIter Nat).fromIterator 4 [1, 2, 3] = (listIter Nat).drain 4 [1, 2, 3] :=
  (collect_round_trip (listIter Nat) 4 [1, 2, 3]).1

/-- C2 (counterexample): the state of `Take` over the array iterator on an empty
source, with `num = 1`, after one `next()` call.  The inner pull produced no
item, yet the remaining-count was decremented from 1 to 0. -/
theorem take_decrement_counterexample :
    ((listIter Nat).next []).1 = none ∧
      (((listIter Nat).take.next ([], 1)).2.2 = 0 ∧
        ((listIter Nat).take.next ([], 1)).2.2 ≠ 1) := by
  refine ⟨rfl, rfl, ?_⟩
  decide

/-- C2 (amended): `Take::next` decrements the remaining-count on every call
on which it is nonzero — before the pull and regardless of whether the pull
produces an item — and delegates that call to the inner iterator; once the
count is zero it reports exhaustion with the state unchanged, never calling
the inner iterator again. -/
theorem take_next_amended {σ α : Type} (it : Iter σ α) (s : σ) :
    it.take.next (s, 0) = (none, (s, 0)) ∧
      ∀ k, it.take.next (s, k + 1) = ((it.next s).1, ((it.next s).2, k)) := by
  exact ⟨rfl, fun k => rfl⟩
